import Mathlib

/-!
Verification of the hangman game engine (`src/model.rs`) and frame
composer (`src/view.rs`).

The Rust code is shallowly embedded: the `BTreeMap<char, bool>` alphabet
map becomes a sorted association list with the same insert/lookup
behaviour, `Vec<char>` becomes `List Char`, and the fallible constructor
returns `Except`.  `Hangman.guess` is translated branch for branch from
`Hangman::guess`.
-/

/-- The state of the hangman's gallows (`enum Gallows` in `src/model.rs`). -/
inductive Gallows where
  | Start
  | AddHead
  | AddTorso
  | AddLeftArm
  | AddRightArm
  | AddLeftLeg
  | AddRightLeg
deriving DecidableEq

/-- Alias for the final `Gallows` state (`Gallows::END`). -/
def Gallows.END : Gallows := Gallows.AddRightLeg

/-- Return the next gallows state, if any (`Gallows::succ`). -/
def Gallows.succ : Gallows → Option Gallows
  | .Start => some .AddHead
  | .AddHead => some .AddTorso
  | .AddTorso => some .AddLeftArm
  | .AddLeftArm => some .AddRightArm
  | .AddRightArm => some .AddLeftLeg
  | .AddLeftLeg => some .AddRightLeg
  | .AddRightLeg => none

/-- Position of a gallows state in the ordered seven-stage sequence. -/
def stageIdx : Gallows → Nat
  | .Start => 0
  | .AddHead => 1
  | .AddTorso => 2
  | .AddLeftArm => 3
  | .AddRightArm => 4
  | .AddLeftLeg => 5
  | .AddRightLeg => 6

/-- Outcome of a completed game (`enum Fate`); the `Lost` payload is the
`Lost { word }` struct flattened to the secret word it carries. -/
inductive Fate where
  | Won
  | Lost (word : List Char)
deriving DecidableEq

/-- Outcome of a guess (`enum Response`); the `lost` payload of `BadGuess`
is the word carried by the `Lost` struct. -/
inductive Response where
  | GoodGuess (guess : Char) (count : Nat) (won : Bool)
  | BadGuess (guess : Char) (lost : Option (List Char))
  | AlreadyGuessed (guess : Char)
  | InvalidGuess (guess : Char)
  | GameOver
deriving DecidableEq

/-- Construction error (`enum HangmanError`). -/
inductive HangmanError where
  | NoAlphabet
deriving DecidableEq

/-- Normalization applied to every character (`normalize_char`, which is
`char::to_ascii_uppercase`): lowercase ASCII letters are upper-cased and
every other character is left as-is. -/
def normalize_char (c : Char) : Char :=
  if 'a' ≤ c ∧ c ≤ 'z' then Char.ofNat (c.toNat - 32) else c

/-- Lookup in the embedded `BTreeMap<char, bool>`: first entry with the
given key (keys are unique in a `BTreeMap`). -/
def lookupChar : List (Char × Bool) → Char → Option Bool
  | [], _ => none
  | (k, v) :: rest, c => if c = k then some v else lookupChar rest c

/-- Ordered insert with replacement: the `BTreeMap` insertion used when
collecting the alphabet map from an iterator of pairs. -/
def btreeInsert : List (Char × Bool) → Char → Bool → List (Char × Bool)
  | [], k, v => [(k, v)]
  | (k', v') :: rest, k, v =>
    if k < k' then (k, v) :: (k', v') :: rest
    else if k = k' then (k, v) :: rest
    else (k', v') :: btreeInsert rest k v

/-- The alphabet map built by `Hangman::new`: every normalized alphabet
character mapped to `false` (not yet guessed). -/
def buildLetters (alphabet : List Char) : List (Char × Bool) :=
  alphabet.foldl (fun m c => btreeInsert m (normalize_char c) false) []

/-- Set the guessed flag of the (unique) entry with the given key to
`true`: the `*b = true` write through `BTreeMap::get_mut`. -/
def setGuessed : List (Char × Bool) → Char → List (Char × Bool)
  | [], _ => []
  | (k, v) :: rest, g => if k = g then (k, true) :: rest else (k, v) :: setGuessed rest g

/-- Number of word positions matching the guess, counted over
`word.iter().zip(known_letters.iter_mut())` as in `Hangman::guess`. -/
def countMatches : List Char → List (Option Char) → Char → Nat
  | [], _, _ => 0
  | _ :: _, [], _ => 0
  | w :: ws, _ :: ks, g => (if w = g then 1 else 0) + countMatches ws ks g

/-- The known-letters vector after the reveal loop of `Hangman::guess`:
every zipped position whose word character equals the guess is set to
`Some`, all other entries are left unchanged. -/
def revealPositions : List Char → List (Option Char) → Char → List (Option Char)
  | [], ks, _ => ks
  | _ :: _, [], _ => []
  | w :: ws, k :: ks, g => (if w = g then some w else k) :: revealPositions ws ks g

/-- A game of Hangman (`struct Hangman`). -/
structure Hangman where
  letters : List (Char × Bool)
  gallows : Gallows
  word : List Char
  known_letters : List (Option Char)
  fate : Option Fate
deriving DecidableEq

/-- Create a game of Hangman (`Hangman::new`): build the alphabet map,
normalize the word, pre-reveal positions whose character is outside the
alphabet, and fail with `NoAlphabet` when every position starts revealed. -/
def Hangman.new (word alphabet : List Char) : Except HangmanError Hangman :=
  let letters := buildLetters alphabet
  let wordN := word.map normalize_char
  let known_letters := wordN.map (fun c => if (lookupChar letters c).isSome then none else some c)
  if known_letters.all Option.isSome then
    Except.error HangmanError.NoAlphabet
  else
    Except.ok
      { letters := letters
        gallows := Gallows.Start
        word := wordN
        known_letters := known_letters
        fate := none }

/-- Process a guess (`Hangman::guess`), returning the updated game
together with the response. -/
def Hangman.guess (h : Hangman) (c : Char) : Hangman × Response :=
  if h.fate.isSome then
    (h, Response.GameOver)
  else
    let g := normalize_char c
    match lookupChar h.letters g with
    | some true => (h, Response.AlreadyGuessed g)
    | some false =>
      let count := countMatches h.word h.known_letters g
      let known := revealPositions h.word h.known_letters g
      let letters := setGuessed h.letters g
      if 0 < count then
        if known.all Option.isSome then
          ({ h with letters := letters, known_letters := known, fate := some Fate.Won },
           Response.GoodGuess g count true)
        else
          ({ h with letters := letters, known_letters := known },
           Response.GoodGuess g count false)
      else
        let gal := h.gallows.succ.getD h.gallows
        if gal = Gallows.END then
          ({ h with
              letters := letters
              known_letters := known
              gallows := gal
              fate := some (Fate.Lost h.word) },
           Response.BadGuess g (some h.word))
        else
          ({ h with letters := letters, known_letters := known, gallows := gal },
           Response.BadGuess g none)
    | none => (h, Response.InvalidGuess g)

/-- Run a sequence of guesses, collecting the final state and the list of
responses in order. -/
def runGuesses (h : Hangman) : List Char → Hangman × List Response
  | [] => (h, [])
  | c :: cs =>
    let step := h.guess c
    let rest := runGuesses step.1 cs
    (rest.1, step.2 :: rest.2)

/-- Game states reachable from a successful construction by any sequence
of `guess` calls. -/
inductive Reachable : Hangman → Prop where
  | new (word alphabet : List Char) (h : Hangman)
      (hnew : Hangman.new word alphabet = Except.ok h) : Reachable h
  | step (h : Hangman) (c : Char) (hr : Reachable h) : Reachable (h.guess c).1

/-- A character counts as revealed with respect to the alphabet map when
it is outside the map or marked guessed in it. -/
def revealedSpec (m : List (Char × Bool)) (c : Char) : Bool :=
  match lookupChar m c with
  | none => true
  | some b => b

/-- Pointwise well-formedness of the known-letters vector against the word
and the alphabet map: same length, and each position carries `some` of its
word character exactly when that character counts as revealed. -/
def knownOk (m : List (Char × Bool)) : List Char → List (Option Char) → Bool
  | [], [] => true
  | w :: ws, k :: ks =>
    (k == (if revealedSpec m w then some w else none)) && knownOk m ws ks
  | _, _ => false

deriving instance DecidableEq for Except

/-- Known-letters vector of a construction result (`[]` on error). -/
def knownOf : Except HangmanError Hangman → List (Option Char)
  | Except.ok h => h.known_letters
  | Except.error _ => []

/-- Whether a construction result is a success. -/
def isOkB : Except HangmanError Hangman → Bool
  | Except.ok _ => true
  | Except.error _ => false

/-- Per-position display state of a word character (`enum CharDisplay`). -/
inductive CharDisplay where
  | Plain (ch : Char)
  | Highlighted (ch : Char)
  | Blank
deriving DecidableEq

/-- Message describing the latest game event (`enum Message`). -/
inductive Message where
  | Start
  | GoodGuess (guess : Char) (count : Nat)
  | BadGuess (guess : Char)
  | AlreadyGuessed (guess : Char)
  | InvalidGuess (guess : Char)
  | Won
  | Lost
deriving DecidableEq

/-- Whether the message marks the end of the game (`Message::is_game_over`). -/
def Message.is_game_over : Message → Bool
  | .Won => true
  | .Lost => true
  | _ => false

/-- Whether the latest event advanced the gallows
(`Message::gallows_advanced`). -/
def Message.gallows_advanced : Message → Bool
  | .BadGuess _ => true
  | .Lost => true
  | _ => false

/-- Debug rendering of a character as done by Rust's `{:?}` format for the
printable characters the game displays: the character between single
quotes, with a quote or backslash itself backslash-escaped. -/
def rustCharDebug (c : Char) : String :=
  "'" ++ (if c = '\'' then "\\'" else if c = '\\' then "\\\\" else String.mk [c]) ++ "'"

/-- Rendered text of a message (the `Display` impl of `Message`). -/
def Message.to_string : Message → String
  | .Start => "Try to guess the secret word!"
  | .GoodGuess g n =>
    "Correct!  There " ++
      (if n = 1 then "is 1 " ++ rustCharDebug g ++ " "
       else "are " ++ toString n ++ " " ++ rustCharDebug g ++ "s ") ++
      "in the word."
  | .BadGuess g => "Wrong!  There's no " ++ rustCharDebug g ++ " in the word."
  | .AlreadyGuessed g => "You already guessed " ++ rustCharDebug g ++ "."
  | .InvalidGuess g => rustCharDebug g ++ " is not an option."
  | .Won => "You win!"
  | .Lost => "Oh dear, you are dead!"

/-- Rendered text of one word position (the `Display` impl of
`CharDisplay`): plain character, bold-emphasised character, or an
underscore for a hidden position. -/
def charDisplayStr : CharDisplay → String
  | .Plain ch => String.mk [ch]
  | .Highlighted ch => "\x1B[1m" ++ String.mk [ch] ++ "\x1B[m"
  | .Blank => "_"

/-- One line of a frame (`struct Line`): its content and, when present,
the width of the block it is centered in. -/
structure Line where
  content : String
  center_in_width : Option Nat
deriving DecidableEq

/-- A frame is the ordered list of its lines (`struct Frame`). -/
abbrev Frame := List Line

/-- An immutable render snapshot (`struct Content`). -/
structure Content where
  hint : Option String
  gallows : Gallows
  guess_options : List (Option Char)
  word_display : List CharDisplay
  message : Message
deriving DecidableEq

/-- Height of the gallows-art tables (`Content::GALLOWS_HEIGHT`). -/
def Content.GALLOWS_HEIGHT : Nat := 5

/-- Display width of the gallows-art tables (`Content::GALLOWS_WIDTH`). -/
def Content.GALLOWS_WIDTH : Nat := 8

/-- Letters per row of the availability grid (`Content::LETTER_COLUMNS`). -/
def Content.LETTER_COLUMNS : Nat := 6

/-- Width of the gutter between gallows art and letter grid
(`Content::GUTTER`). -/
def Content.GUTTER : Nat := 4

/-- Baseline frame width (`Content::WIDTH`). -/
def Content.WIDTH : Nat :=
  Content.GALLOWS_WIDTH + Content.GUTTER + (Content.LETTER_COLUMNS * 2) - 1

/-- Display width of a rendered line.  Modelled from the spec: the
`console::measure_text_width` dependency counts the drawing characters
used here as single columns and any embedded `ESC [ ... m`
emphasis/colour escape sequence as zero width. -/
def displayWidth (s : String) : Nat :=
  (s.data.foldl
    (fun st c =>
      match st with
      | (true, n) => (decide (c ≠ 'm'), n)
      | (false, n) => if c = '\x1B' then (true, n) else (false, n + 1))
    ((false : Bool), (0 : Nat))).2

/-- The gallows-art lookup table (`Content::draw_gallows`): five lines per
stage, with the newest body part emphasised when `highlight` is set. -/
def Content.draw_gallows (gallows : Gallows) (highlight : Bool) : List String :=
  match gallows, highlight with
  | .Start, _ =>
    ["  ┌───┐ ",
     "  │     ",
     "  │     ",
     "  │     ",
     "──┴──   "]
  | .AddHead, false =>
    ["  ┌───┐ ",
     "  │   o ",
     "  │     ",
     "  │     ",
     "──┴──   "]
  | .AddHead, true =>
    ["  ┌───┐ ",
     "  │   \x1B[1;31mo\x1B[m ",
     "  │     ",
     "  │     ",
     "──┴──   "]
  | .AddTorso, false =>
    ["  ┌───┐ ",
     "  │   o ",
     "  │   | ",
     "  │     ",
     "──┴──   "]
  | .AddTorso, true =>
    ["  ┌───┐ ",
     "  │   o ",
     "  │   \x1B[1;31m|\x1B[m ",
     "  │     ",
     "──┴──   "]
  | .AddLeftArm, false =>
    ["  ┌───┐ ",
     "  │   o ",
     "  │  /| ",
     "  │     ",
     "──┴──   "]
  | .AddLeftArm, true =>
    ["  ┌───┐ ",
     "  │   o ",
     "  │  \x1B[1;31m/\x1B[m| ",
     "  │     ",
     "──┴──   "]
  | .AddRightArm, false =>
    ["  ┌───┐ ",
     "  │   o ",
     "  │  /|\\",
     "  │     ",
     "──┴──   "]
  | .AddRightArm, true =>
    ["  ┌───┐ ",
     "  │   o ",
     "  │  /|\x1B[1;31m\\\x1B[m",
     "  │     ",
     "──┴──   "]
  | .AddLeftLeg, false =>
    ["  ┌───┐ ",
     "  │   o ",
     "  │  /|\\",
     "  │  /  ",
     "──┴──   "]
  | .AddLeftLeg, true =>
    ["  ┌───┐ ",
     "  │   o ",
     "  │  /|\\",
     "  │  \x1B[1;31m/\x1B[m  ",
     "──┴──   "]
  | .AddRightLeg, false =>
    ["  ┌───┐ ",
     "  │   o ",
     "  │  /|\\",
     "  │  / \\",
     "──┴──   "]
  | .AddRightLeg, true =>
    ["  ┌───┐ ",
     "  │   o ",
     "  │  /|\\",
     "  │  / \x1B[1;31m\\\x1B[m",
     "──┴──   "]

/-- The gutter appended after each gallows-art row: the
`format!("{}{:gutter$}", row, "")` padding of the empty string to
`GUTTER` columns. -/
def gutterStr : String := "    "

/-- Split the letter-availability options into rows of `LETTER_COLUMNS`
entries (`chunks(Content::LETTER_COLUMNS)`). -/
def chunks6 : List (Option Char) → List (List (Option Char))
  | [] => []
  | [a] => [[a]]
  | [a, b] => [[a, b]]
  | [a, b, c] => [[a, b, c]]
  | [a, b, c, d] => [[a, b, c, d]]
  | [a, b, c, d, e] => [[a, b, c, d, e]]
  | a :: b :: c :: d :: e :: f :: rest => [a, b, c, d, e, f] :: chunks6 rest

/-- Space-separated continuation of a letter-grid row. -/
def chunkStrTail : List (Option Char) → String
  | [] => ""
  | o :: os => String.mk [' ', o.getD ' '] ++ chunkStrTail os

/-- Text of one letter-grid row: the entries space-separated, an available
letter shown as itself and a used letter as a blank
(`opt.unwrap_or(' ')`). -/
def chunkStr : List (Option Char) → String
  | [] => ""
  | o :: os => String.mk [o.getD ' '] ++ chunkStrTail os

/-- Row of spaces standing in for a gallows-art row when the letter grid
has more rows than the art (`" ".repeat(GALLOWS_WIDTH + GUTTER)`). -/
def blankHudRow : String := String.mk (List.replicate 12 ' ')

/-- Combine the gallows-art rows (gutter already appended) with the
letter-grid rows, row by row, synthesising blank art rows for extra
letter rows — the hud loop of `Content::render`. -/
def buildHud : List String → List (List (Option Char)) → List String
  | rows, [] => rows
  | [], ch :: chs => (blankHudRow ++ chunkStr ch) :: buildHud [] chs
  | r :: rows, ch :: chs => (r ++ chunkStr ch) :: buildHud rows chs

/-- Space-separated continuation of the word line. -/
def wordLineTail : List CharDisplay → String
  | [] => ""
  | d :: ds => " " ++ charDisplayStr d ++ wordLineTail ds

/-- The centered word line: the per-position display characters,
space-separated. -/
def wordLine : List CharDisplay → String
  | [] => ""
  | d :: ds => charDisplayStr d ++ wordLineTail ds

/-- Compose a frame from a content snapshot (`Content::render`): hint
line, blank, the five-or-more hud rows, blank, word line, blank, message
line, blank, and the game-over prompt or a final blank line. -/
def Content.render (cont : Content) : Frame :=
  let hintText := match cont.hint with
    | some htext => "Hint: " ++ htext
    | none => ""
  let gallowsRows :=
    (Content.draw_gallows cont.gallows cont.message.gallows_advanced).map
      (fun row => row ++ gutterStr)
  let hud := buildHud gallowsRows (chunks6 cont.guess_options)
  [Line.mk hintText (some Content.WIDTH), Line.mk "" (some Content.WIDTH)]
    ++ hud.map (fun ln => Line.mk ln (some Content.WIDTH))
    ++ [Line.mk "" (some Content.WIDTH),
        Line.mk (wordLine cont.word_display) none,
        Line.mk "" (some Content.WIDTH),
        Line.mk cont.message.to_string none,
        Line.mk "" (some Content.WIDTH),
        if cont.message.is_game_over then Line.mk "Press the Any Key to exit." none
        else Line.mk "" (some Content.WIDTH)]

/-- Sample game used in concrete witnesses: secret word "A" over the
alphabet A-G, exactly the state `Hangman.new` produces for them. -/
def gameA : Hangman :=
  { letters := [('A', false), ('B', false), ('C', false), ('D', false), ('E', false),
      ('F', false), ('G', false)]
    gallows := Gallows.Start
    word := ['A']
    known_letters := [none]
    fate := none }

/-- Sample game used in concrete witnesses: secret word "A" over the
alphabet AB. -/
def gameB : Hangman :=
  { letters := [('A', false), ('B', false)]
    gallows := Gallows.Start
    word := ['A']
    known_letters := [none]
    fate := none }

/-- Sample game used in concrete witnesses: secret word "CA" over the
alphabet ABC. -/
def gameCA : Hangman :=
  { letters := [('A', false), ('B', false), ('C', false)]
    gallows := Gallows.Start
    word := ['C', 'A']
    known_letters := [none, none]
    fate := none }

/-- Sample game used in concrete witnesses: secret word "CAB" over the
alphabet ABC. -/
def gameCAB : Hangman :=
  { letters := [('A', false), ('B', false), ('C', false)]
    gallows := Gallows.Start
    word := ['C', 'A', 'B']
    known_letters := [none, none, none]
    fate := none }

/-- Sample render snapshot used in concrete witnesses. -/
def sampleContent : Content :=
  { hint := some "A difficult word"
    gallows := Gallows.AddHead
    guess_options := [some 'A', none, some 'C', some 'D', none, some 'F', some 'G', some 'H']
    word_display := [CharDisplay.Plain 'A', CharDisplay.Blank, CharDisplay.Highlighted 'C']
    message := Message.BadGuess 'E' }

theorem lookupChar_btreeInsert (m : List (Char × Bool)) (k c : Char) (v : Bool) :
    lookupChar (btreeInsert m k v) c = if c = k then some v else lookupChar m c := by
  induction m with
  | nil => simp [btreeInsert, lookupChar]
  | cons p rest ih =>
    obtain ⟨k', v'⟩ := p
    by_cases h1 : k < k'
    · by_cases hc : c = k <;> simp [btreeInsert, h1, lookupChar, hc]
    · by_cases h2 : k = k'
      · subst h2
        by_cases hc : c = k <;> simp [btreeInsert, h1, lookupChar, hc]
      · by_cases hck : c = k'
        · subst hck
          have : c ≠ k := fun hh => h2 hh.symm
          simp [btreeInsert, h1, h2, lookupChar, this]
        · simp [btreeInsert, h1, h2, lookupChar, hck, ih]

theorem lookupChar_setGuessed (m : List (Char × Bool)) (g c : Char) :
    lookupChar (setGuessed m g) c =
      if c = g then (lookupChar m c).map (fun _ => true) else lookupChar m c := by
  induction m with
  | nil => simp [setGuessed, lookupChar]
  | cons p rest ih =>
    obtain ⟨k, v⟩ := p
    by_cases hk : k = g
    · subst hk
      by_cases hc : c = k <;> simp [setGuessed, lookupChar, hc]
    · by_cases hc : c = k
      · subst hc
        have hck : c ≠ g := fun hh => hk hh
        simp [setGuessed, hck, lookupChar]
      · simp [setGuessed, hk, lookupChar, hc, ih]

theorem lookupChar_foldl_insert (a : List Char) (m : List (Char × Bool)) (c : Char) :
    lookupChar (a.foldl (fun m' ch => btreeInsert m' (normalize_char ch) false) m) c =
      if c ∈ a.map normalize_char then some false else lookupChar m c := by
  induction a generalizing m with
  | nil => simp
  | cons a0 as ih =>
    simp only [List.foldl_cons, ih, lookupChar_btreeInsert, List.map_cons, List.mem_cons]
    by_cases h1 : c ∈ as.map normalize_char
    · simp [h1]
    · by_cases h2 : c = normalize_char a0 <;> simp [h1, h2]

theorem lookupChar_buildLetters (a : List Char) (c : Char) :
    lookupChar (buildLetters a) c =
      if c ∈ a.map normalize_char then some false else none := by
  simpa [buildLetters] using lookupChar_foldl_insert a [] c

theorem lookupChar_buildLetters_ne_some_true (a : List Char) (c : Char) :
    lookupChar (buildLetters a) c ≠ some true := by
  rw [lookupChar_buildLetters]
  split <;> simp

theorem countMatches_of_not_mem (ws : List Char) (ks : List (Option Char)) (g : Char)
    (h : g ∉ ws) : countMatches ws ks g = 0 := by
  induction ws generalizing ks with
  | nil => simp [countMatches]
  | cons w ws ih =>
    match ks with
    | [] => simp [countMatches]
    | k :: ks =>
      have hne : w ≠ g := fun hh => h (hh ▸ List.mem_cons_self w ws)
      have hg : g ∉ ws := fun hh => h (List.mem_cons_of_mem _ hh)
      simp [countMatches, hne, ih ks hg]

theorem countMatches_pos (ws : List Char) (ks : List (Option Char)) (g : Char)
    (hlen : ks.length = ws.length) (h : g ∈ ws) : 0 < countMatches ws ks g := by
  induction ws generalizing ks with
  | nil => simp at h
  | cons w ws ih =>
    match ks with
    | [] => simp at hlen
    | k :: ks =>
      simp only [List.length_cons, Nat.succ.injEq] at hlen
      rcases List.mem_cons.mp h with hh | hh
      · simp [countMatches, hh.symm]
      · have := ih ks hlen hh
        simp [countMatches]
        omega

theorem revealPositions_of_not_mem (ws : List Char) (ks : List (Option Char)) (g : Char)
    (h : g ∉ ws) : revealPositions ws ks g = ks := by
  induction ws generalizing ks with
  | nil => simp [revealPositions]
  | cons w ws ih =>
    match ks with
    | [] => simp [revealPositions]
    | k :: ks =>
      have hne : w ≠ g := fun hh => h (hh ▸ List.mem_cons_self w ws)
      have hg : g ∉ ws := fun hh => h (List.mem_cons_of_mem _ hh)
      simp [revealPositions, hne, ih ks hg]

theorem revealedSpec_setGuessed (m : List (Char × Bool)) (g c : Char) :
    revealedSpec (setGuessed m g) c = if c = g then true else revealedSpec m c := by
  by_cases hc : c = g
  · subst hc
    simp only [revealedSpec, lookupChar_setGuessed, if_pos rfl]
    cases lookupChar m c <;> simp
  · simp [revealedSpec, lookupChar_setGuessed, hc]

theorem knownOk_length {m : List (Char × Bool)} :
    ∀ {ws : List Char} {ks : List (Option Char)},
      knownOk m ws ks = true → ks.length = ws.length := by
  intro ws
  induction ws with
  | nil => intro ks hk; cases ks with
    | nil => rfl
    | cons k ks => simp [knownOk] at hk
  | cons w ws ih =>
    intro ks hk
    cases ks with
    | nil => simp [knownOk] at hk
    | cons k ks =>
      simp only [knownOk, Bool.and_eq_true] at hk
      simp [ih hk.2]

theorem knownOk_get {m : List (Char × Bool)} :
    ∀ {ws : List Char} {ks : List (Option Char)}, knownOk m ws ks = true →
      ∀ i (hw : i < ws.length) (hk : i < ks.length),
        ks.get ⟨i, hk⟩ =
          if revealedSpec m (ws.get ⟨i, hw⟩) then some (ws.get ⟨i, hw⟩) else none := by
  intro ws
  induction ws with
  | nil => intro ks hko i hw; simp at hw
  | cons w ws ih =>
    intro ks hko i hw hk
    cases ks with
    | nil => simp [knownOk] at hko
    | cons k ks =>
      simp only [knownOk, Bool.and_eq_true, beq_iff_eq] at hko
      cases i with
      | zero => simpa using hko.1
      | succ j =>
        simp only [List.get_cons_succ]
        exact ih hko.2 j (Nat.lt_of_succ_lt_succ hw) (Nat.lt_of_succ_lt_succ hk)

theorem knownOk_reveal {m : List (Char × Bool)} (g : Char) :
    ∀ {ws : List Char} {ks : List (Option Char)}, knownOk m ws ks = true →
      knownOk (setGuessed m g) ws (revealPositions ws ks g) = true := by
  intro ws
  induction ws with
  | nil => intro ks hko; cases ks with
    | nil => simp [knownOk, revealPositions]
    | cons k ks => simp [knownOk] at hko
  | cons w ws ih =>
    intro ks hko
    cases ks with
    | nil => simp [knownOk] at hko
    | cons k ks =>
      simp only [knownOk, Bool.and_eq_true, beq_iff_eq] at hko
      simp only [revealPositions, knownOk, Bool.and_eq_true, beq_iff_eq]
      refine ⟨?_, ih hko.2⟩
      by_cases hw : w = g
      · subst hw
        simp [revealedSpec_setGuessed]
      · simp [revealedSpec_setGuessed, hw, hko.1]

theorem knownOk_all_isSome {m : List (Char × Bool)} :
    ∀ {ws : List Char} {ks : List (Option Char)}, knownOk m ws ks = true →
      (ks.all Option.isSome = true ↔ ∀ c ∈ ws, revealedSpec m c = true) := by
  intro ws
  induction ws with
  | nil => intro ks hko; cases ks with
    | nil => simp
    | cons k ks => simp [knownOk] at hko
  | cons w ws ih =>
    intro ks hko
    cases ks with
    | nil => simp [knownOk] at hko
    | cons k ks =>
      simp only [knownOk, Bool.and_eq_true, beq_iff_eq] at hko
      obtain ⟨hk1, hk2⟩ := hko
      simp only [List.all_cons, Bool.and_eq_true, List.mem_cons, ih hk2]
      constructor
      · rintro ⟨hsome, hrest⟩ c (rfl | hc)
        · by_contra hfalse
          rw [Bool.not_eq_true] at hfalse
          rw [hfalse] at hk1
          subst hk1
          simp at hsome
        · exact hrest c hc
      · intro hall
        refine ⟨?_, fun c hc => hall c (Or.inr hc)⟩
        rw [hall w (Or.inl rfl)] at hk1
        subst hk1
        simp

theorem knownOk_not_all {m : List (Char × Bool)} {ws : List Char} {ks : List (Option Char)}
    (c : Char) (hko : knownOk m ws ks = true) (hc : c ∈ ws)
    (hrs : revealedSpec m c = false) : ks.all Option.isSome = false := by
  cases hall : ks.all Option.isSome
  · rfl
  · have := (knownOk_all_isSome hko).mp hall c hc
    rw [hrs] at this
    cases this

theorem knownOk_new (a : List Char) (ws : List Char) :
    knownOk (buildLetters a) ws
      (ws.map (fun c => if (lookupChar (buildLetters a) c).isSome then none else some c))
      = true := by
  induction ws with
  | nil => simp [knownOk]
  | cons w ws ih =>
    simp only [List.map_cons, knownOk, Bool.and_eq_true, beq_iff_eq]
    refine ⟨?_, ih⟩
    rcases hb : lookupChar (buildLetters a) w with _ | b
    · simp [revealedSpec, hb]
    · cases b
      · simp [revealedSpec, hb]
      · exact absurd hb (lookupChar_buildLetters_ne_some_true a w)

theorem new_ok_elim {word alphabet : List Char} {h : Hangman}
    (hnew : Hangman.new word alphabet = Except.ok h) :
    h = { letters := buildLetters alphabet
          gallows := Gallows.Start
          word := word.map normalize_char
          known_letters := (word.map normalize_char).map
            (fun c => if (lookupChar (buildLetters alphabet) c).isSome then none else some c)
          fate := none } ∧
    ((word.map normalize_char).map
        (fun c => if (lookupChar (buildLetters alphabet) c).isSome then none else some c)).all
      Option.isSome = false := by
  simp only [Hangman.new] at hnew
  split at hnew
  · cases hnew
  · rename_i hall
    injection hnew with hh
    exact ⟨hh.symm, by simpa using hall⟩

theorem guess_game_over {h : Hangman} (c : Char) (hf : h.fate.isSome = true) :
    h.guess c = (h, Response.GameOver) := by
  simp [Hangman.guess, hf]

theorem guess_invalid {h : Hangman} (c : Char) (hf : h.fate = none)
    (hl : lookupChar h.letters (normalize_char c) = none) :
    h.guess c = (h, Response.InvalidGuess (normalize_char c)) := by
  simp [Hangman.guess, hf, hl]

theorem guess_already {h : Hangman} (c : Char) (hf : h.fate = none)
    (hl : lookupChar h.letters (normalize_char c) = some true) :
    h.guess c = (h, Response.AlreadyGuessed (normalize_char c)) := by
  simp [Hangman.guess, hf, hl]

theorem guess_good_won {h : Hangman} (c : Char) (hf : h.fate = none)
    (hl : lookupChar h.letters (normalize_char c) = some false)
    (hc : 0 < countMatches h.word h.known_letters (normalize_char c))
    (ha : (revealPositions h.word h.known_letters (normalize_char c)).all Option.isSome
        = true) :
    h.guess c =
      ({ h with
          letters := setGuessed h.letters (normalize_char c)
          known_letters := revealPositions h.word h.known_letters (normalize_char c)
          fate := some Fate.Won },
       Response.GoodGuess (normalize_char c)
         (countMatches h.word h.known_letters (normalize_char c)) true) := by
  simp [Hangman.guess, hf, hl, hc, ha]

theorem guess_good_continue {h : Hangman} (c : Char) (hf : h.fate = none)
    (hl : lookupChar h.letters (normalize_char c) = some false)
    (hc : 0 < countMatches h.word h.known_letters (normalize_char c))
    (ha : (revealPositions h.word h.known_letters (normalize_char c)).all Option.isSome
        = false) :
    h.guess c =
      ({ h with
          letters := setGuessed h.letters (normalize_char c)
          known_letters := revealPositions h.word h.known_letters (normalize_char c) },
       Response.GoodGuess (normalize_char c)
         (countMatches h.word h.known_letters (normalize_char c)) false) := by
  simp [Hangman.guess, hf, hl, hc, ha]

theorem guess_bad_step {h : Hangman} (c : Char) {gal : Gallows} (hf : h.fate = none)
    (hl : lookupChar h.letters (normalize_char c) = some false)
    (hc : countMatches h.word h.known_letters (normalize_char c) = 0)
    (hs : h.gallows.succ = some gal) (hne : gal ≠ Gallows.END) :
    h.guess c =
      ({ h with
          letters := setGuessed h.letters (normalize_char c)
          known_letters := revealPositions h.word h.known_letters (normalize_char c)
          gallows := gal },
       Response.BadGuess (normalize_char c) none) := by
  simp [Hangman.guess, hf, hl, hc, hs, hne]

theorem guess_bad_lose {h : Hangman} (c : Char) (hf : h.fate = none)
    (hl : lookupChar h.letters (normalize_char c) = some false)
    (hc : countMatches h.word h.known_letters (normalize_char c) = 0)
    (hs : h.gallows.succ = some Gallows.END) :
    h.guess c =
      ({ h with
          letters := setGuessed h.letters (normalize_char c)
          known_letters := revealPositions h.word h.known_letters (normalize_char c)
          gallows := Gallows.END
          fate := some (Fate.Lost h.word) },
       Response.BadGuess (normalize_char c) (some h.word)) := by
  simp [Hangman.guess, hf, hl, hc, hs]

theorem stageIdx_succ {g g' : Gallows} (hs : g.succ = some g') :
    stageIdx g' = stageIdx g + 1 := by
  cases g <;> simp_all [Gallows.succ, stageIdx] <;> subst hs <;> rfl

theorem guess_gallows_cases (h : Hangman) (c : Char) :
    (h.guess c).1.gallows = h.gallows ∨ h.gallows.succ = some (h.guess c).1.gallows := by
  unfold Hangman.guess
  split
  · left; rfl
  · dsimp only
    split
    · left; rfl
    · split
      · split
        · left; rfl
        · left; rfl
      · rcases hs : h.gallows.succ with _ | g2
        · split <;> simp [hs]
        · split <;> simp [hs]
    · left; rfl

theorem stageIdx_le_guess (h : Hangman) (c : Char) :
    stageIdx h.gallows ≤ stageIdx (h.guess c).1.gallows := by
  rcases guess_gallows_cases h c with heq | hs
  · rw [heq]
  · rw [stageIdx_succ hs]
    omega

theorem stageIdx_le_runGuesses (gs : List Char) (h : Hangman) :
    stageIdx h.gallows ≤ stageIdx (runGuesses h gs).1.gallows := by
  induction gs generalizing h with
  | nil => simp [runGuesses]
  | cons g gs ih =>
    simp only [runGuesses]
    exact le_trans (stageIdx_le_guess h g) (ih (h.guess g).1)

theorem reach_knownOk {h : Hangman} (hr : Reachable h) :
    knownOk h.letters h.word h.known_letters = true := by
  induction hr with
  | new w a h hnew =>
    obtain ⟨hh, _⟩ := new_ok_elim hnew
    subst hh
    exact knownOk_new a (w.map normalize_char)
  | step h c hr ih =>
    unfold Hangman.guess
    split
    · exact ih
    · dsimp only
      split
      · exact ih
      · split
        · split
          · exact knownOk_reveal _ ih
          · exact knownOk_reveal _ ih
        · split
          · exact knownOk_reveal _ ih
          · exact knownOk_reveal _ ih
      · exact ih

theorem reach_gallows_ne_end {h : Hangman} (hr : Reachable h) :
    h.fate = none → h.gallows ≠ Gallows.END := by
  induction hr with
  | new w a h hnew =>
    intro _
    obtain ⟨hh, _⟩ := new_ok_elim hnew
    subst hh
    simp [Gallows.END]
  | step h c hr ih =>
    unfold Hangman.guess
    split
    · exact ih
    · dsimp only
      split
      · exact ih
      · split
        · split
          · intro hfa; cases hfa
          · exact ih
        · split
          · intro hfa; cases hfa
          · rename_i hnend
            intro _
            exact hnend
      · exact ih

theorem getLast?_cons_ne_nil {α : Type} (a : α) {l : List α} (h : l ≠ []) :
    (a :: l).getLast? = l.getLast? := by
  cases l with
  | nil => cases h rfl
  | cons b bs => rw [List.getLast?_cons_cons]

theorem runGuesses_resp_length (gs : List Char) (h : Hangman) :
    (runGuesses h gs).2.length = gs.length := by
  induction gs generalizing h with
  | nil => rfl
  | cons g gs ih => simp [runGuesses, ih]

theorem succ_of_stageIdx_le_four {g : Gallows} (hg : stageIdx g ≤ 4) :
    ∃ g2, g.succ = some g2 ∧ stageIdx g2 = stageIdx g + 1 ∧ g2 ≠ Gallows.END := by
  cases g
  · exact ⟨.AddHead, rfl, rfl, by decide⟩
  · exact ⟨.AddTorso, rfl, rfl, by decide⟩
  · exact ⟨.AddLeftArm, rfl, rfl, by decide⟩
  · exact ⟨.AddRightArm, rfl, rfl, by decide⟩
  · exact ⟨.AddLeftLeg, rfl, rfl, by decide⟩
  · simp [stageIdx] at hg
  · simp [stageIdx] at hg

theorem eq_addLeftLeg_of_stageIdx_eq_five {g : Gallows} (hg : stageIdx g = 5) :
    g = Gallows.AddLeftLeg := by
  cases g <;> simp_all [stageIdx]

theorem badRun (gs : List Char) : ∀ (h : Hangman),
    h.fate = none →
    (gs.map normalize_char).Pairwise (· ≠ ·) →
    (∀ g ∈ gs, lookupChar h.letters (normalize_char g) = some false) →
    (∀ g ∈ gs, normalize_char g ∉ h.word) →
    stageIdx h.gallows + gs.length = 6 →
    gs ≠ [] →
    (runGuesses h gs).1.fate = some (Fate.Lost h.word) ∧
    (∃ g, gs.getLast? = some g ∧
      (runGuesses h gs).2.getLast? =
        some (Response.BadGuess (normalize_char g) (some h.word))) := by
  induction gs with
  | nil => intro h _ _ _ _ _ hne; exact absurd rfl hne
  | cons g rest ih =>
    intro h hf hdist halpha habs hidx _
    have hcount : countMatches h.word h.known_letters (normalize_char g) = 0 :=
      countMatches_of_not_mem _ _ _ (habs g (List.mem_cons_self g rest))
    have hlg : lookupChar h.letters (normalize_char g) = some false :=
      halpha g (List.mem_cons_self g rest)
    cases rest with
    | nil =>
      have h5 : stageIdx h.gallows = 5 := by
        simp only [List.length_cons, List.length_nil] at hidx
        omega
      have hgal : h.gallows = Gallows.AddLeftLeg := eq_addLeftLeg_of_stageIdx_eq_five h5
      have hsucc : h.gallows.succ = some Gallows.END := by rw [hgal]; rfl
      have heq := guess_bad_lose g hf hlg hcount hsucc
      refine ⟨by simp [runGuesses, heq], g, rfl, by simp [runGuesses, heq]⟩
    | cons g2 rest2 =>
      have hidx4 : stageIdx h.gallows ≤ 4 := by
        simp only [List.length_cons] at hidx
        omega
      obtain ⟨gal, hsucc, hgidx, hgne⟩ := succ_of_stageIdx_le_four hidx4
      have heq := guess_bad_step g hf hlg hcount hsucc hgne
      rw [List.map_cons, List.pairwise_cons] at hdist
      obtain ⟨hhead, htail⟩ := hdist
      have hrec := ih (h.guess g).1 (by rw [heq]; exact hf) htail
        (fun g' hg' => by
          rw [heq]
          show lookupChar (setGuessed h.letters (normalize_char g)) (normalize_char g')
              = some false
          rw [lookupChar_setGuessed]
          have hne : normalize_char g' ≠ normalize_char g :=
            fun hh => hhead (normalize_char g') (List.mem_map_of_mem _ hg') hh.symm
          rw [if_neg hne]
          exact halpha g' (List.mem_cons_of_mem _ hg'))
        (fun g' hg' => by
          rw [heq]
          exact habs g' (List.mem_cons_of_mem _ hg'))
        (by
          rw [heq]
          show stageIdx gal + (g2 :: rest2).length = 6
          simp only [List.length_cons] at hidx ⊢
          omega)
        (by simp)
      have hword : (h.guess g).1.word = h.word := by rw [heq]
      rw [hword] at hrec
      obtain ⟨hfate, glast, hlast1, hlast2⟩ := hrec
      refine ⟨?_, glast, ?_, ?_⟩
      · simpa [runGuesses] using hfate
      · rw [List.getLast?_cons_cons]
        exact hlast1
      · have h2 : (runGuesses h (g :: g2 :: rest2)).2
            = (h.guess g).2 :: (runGuesses (h.guess g).1 (g2 :: rest2)).2 := rfl
        rw [h2]
        have hne2 : (runGuesses (h.guess g).1 (g2 :: rest2)).2 ≠ [] := by
          have := runGuesses_resp_length (g2 :: rest2) (h.guess g).1
          intro hnil
          rw [hnil] at this
          simp at this
        rw [getLast?_cons_ne_nil _ hne2]
        exact hlast2

theorem dropLast_cons_ne_nil {α : Type} (a : α) {l : List α} (h : l ≠ []) :
    (a :: l).dropLast = a :: l.dropLast := by
  cases l with
  | nil => cases h rfl
  | cons b bs => rw [List.dropLast_cons₂]

theorem winRun (gs : List Char) : ∀ (h : Hangman),
    knownOk h.letters h.word h.known_letters = true →
    h.fate = none →
    (gs.map normalize_char).Pairwise (· ≠ ·) →
    (∀ g ∈ gs, lookupChar h.letters (normalize_char g) = some false) →
    (∀ g ∈ gs, normalize_char g ∈ h.word) →
    (∀ c ∈ h.word, lookupChar h.letters c = some false → c ∈ gs.map normalize_char) →
    gs ≠ [] →
    (runGuesses h gs).1.fate = some Fate.Won ∧
    (runGuesses h gs).1.known_letters.all Option.isSome = true ∧
    (∀ r ∈ (runGuesses h gs).2.dropLast, ∃ g n, r = Response.GoodGuess g n false) ∧
    (∃ g n, gs.getLast? = some g ∧
      (runGuesses h gs).2.getLast? =
        some (Response.GoodGuess (normalize_char g) n true)) := by
  induction gs with
  | nil => intro h _ _ _ _ _ _ hne; exact absurd rfl hne
  | cons g rest ih =>
    intro h hko hf hdist halpha hmemw hcover _
    have hlg := halpha g (List.mem_cons_self g rest)
    have hgw := hmemw g (List.mem_cons_self g rest)
    have hlen : h.known_letters.length = h.word.length := knownOk_length hko
    have hcpos : 0 < countMatches h.word h.known_letters (normalize_char g) :=
      countMatches_pos _ _ _ hlen hgw
    have hko' : knownOk (setGuessed h.letters (normalize_char g)) h.word
        (revealPositions h.word h.known_letters (normalize_char g)) = true :=
      knownOk_reveal _ hko
    rw [List.map_cons, List.pairwise_cons] at hdist
    obtain ⟨hhead, htail⟩ := hdist
    cases rest with
    | nil =>
      have hall : (revealPositions h.word h.known_letters (normalize_char g)).all
          Option.isSome = true := by
        rw [knownOk_all_isSome hko']
        intro c hcw
        rw [revealedSpec_setGuessed]
        by_cases hcg : c = normalize_char g
        · simp [hcg]
        · rw [if_neg hcg]
          rcases hb : lookupChar h.letters c with _ | b
          · simp [revealedSpec, hb]
          · cases b
            · have := hcover c hcw hb
              simp at this
              exact absurd this hcg
            · simp [revealedSpec, hb]
      have heq := guess_good_won g hf hlg hcpos hall
      refine ⟨by simp [runGuesses, heq], by simpa [runGuesses, heq] using hall,
        by simp [runGuesses], g,
        countMatches h.word h.known_letters (normalize_char g), rfl,
        by simp [runGuesses, heq]⟩
    | cons g2 rest2 =>
      have hmw2 : normalize_char g2 ∈ h.word :=
        hmemw g2 (List.mem_cons_of_mem _ (List.mem_cons_self g2 rest2))
      have hne2 : normalize_char g2 ≠ normalize_char g := by
        intro hh
        exact hhead (normalize_char g2)
          (List.mem_map_of_mem _ (List.mem_cons_self g2 rest2)) hh.symm
      have hnall : (revealPositions h.word h.known_letters (normalize_char g)).all
          Option.isSome = false := by
        apply knownOk_not_all (normalize_char g2) hko' hmw2
        rw [revealedSpec_setGuessed, if_neg hne2]
        have hb := halpha g2 (List.mem_cons_of_mem _ (List.mem_cons_self g2 rest2))
        simp [revealedSpec, hb]
      have heq := guess_good_continue g hf hlg hcpos hnall
      have hrec := ih (h.guess g).1
        (by rw [heq]; exact hko')
        (by rw [heq]; exact hf)
        htail
        (fun g' hg' => by
          rw [heq]
          show lookupChar (setGuessed h.letters (normalize_char g)) (normalize_char g')
              = some false
          rw [lookupChar_setGuessed]
          have hne' : normalize_char g' ≠ normalize_char g :=
            fun hh => hhead (normalize_char g') (List.mem_map_of_mem _ hg') hh.symm
          rw [if_neg hne']
          exact halpha g' (List.mem_cons_of_mem _ hg'))
        (fun g' hg' => by
          rw [heq]
          exact hmemw g' (List.mem_cons_of_mem _ hg'))
        (fun c hcw hb' => by
          rw [heq] at hcw hb'
          show c ∈ (g2 :: rest2).map normalize_char
          have hb'' : lookupChar (setGuessed h.letters (normalize_char g)) c = some false :=
            hb'
          rw [lookupChar_setGuessed] at hb''
          by_cases hcg : c = normalize_char g
          · rw [if_pos hcg] at hb''
            rcases hlk : lookupChar h.letters c with _ | b <;> rw [hlk] at hb'' <;>
              simp at hb''
          · rw [if_neg hcg] at hb''
            have := hcover c hcw hb''
            rw [List.map_cons] at this
            rcases List.mem_cons.mp this with hh | hh
            · exact absurd hh hcg
            · exact hh)
        (by simp)
      obtain ⟨hfate, hallfin, hdrop, glast, nlast, hlast1, hlast2⟩ := hrec
      have hrs : (runGuesses h (g :: g2 :: rest2)).2
          = (h.guess g).2 :: (runGuesses (h.guess g).1 (g2 :: rest2)).2 := rfl
      have hrsne : (runGuesses (h.guess g).1 (g2 :: rest2)).2 ≠ [] := by
        have := runGuesses_resp_length (g2 :: rest2) (h.guess g).1
        intro hnil
        rw [hnil] at this
        simp at this
      refine ⟨by simpa [runGuesses] using hfate, by simpa [runGuesses] using hallfin,
        ?_, glast, nlast, ?_, ?_⟩
      · rw [hrs, dropLast_cons_ne_nil _ hrsne]
        intro r hr
        rcases List.mem_cons.mp hr with hh | hh
        · subst hh
          rw [heq]
          exact ⟨normalize_char g, countMatches h.word h.known_letters (normalize_char g),
            rfl⟩
        · exact hdrop r hh
      · rw [List.getLast?_cons_cons]
        exact hlast1
      · rw [hrs, getLast?_cons_ne_nil _ hrsne]
        exact hlast2

/-- C4: for every reachable game state whose fate is set, every
subsequent `guess` call, with any character, returns the `GameOver`
response and leaves every component of the state (alphabet map, gallows,
word, known-letters vector, fate) unchanged. -/
theorem c4_game_over_frozen (h : Hangman) (c : Char) (_hr : Reachable h)
    (hf : h.fate.isSome = true) :
    h.guess c = (h, Response.GameOver) :=
  guess_game_over c hf

/-- Witness for C4: in a won game, a further guess returns `GameOver`
and changes nothing. -/
theorem c4_game_over_frozen_witness :
    (gameB.guess 'A').1.guess 'B' = ((gameB.guess 'A').1, Response.GameOver) :=
  c4_game_over_frozen (gameB.guess 'A').1 'B'
    (Reachable.step gameB 'A' (Reachable.new ['A'] ['A', 'B'] gameB (by decide)))
    (by decide)

/-- C6: for every game whose fate is not yet set, guessing a character
whose normalized form is absent from the alphabet map returns
`InvalidGuess` carrying the normalized character and leaves the whole
state (gallows, alphabet map, known-letters vector, fate) unchanged. -/
theorem c6_invalid_guess_no_change (h : Hangman) (c : Char) (hf : h.fate = none)
    (hl : lookupChar h.letters (normalize_char c) = none) :
    h.guess c = (h, Response.InvalidGuess (normalize_char c)) :=
  guess_invalid c hf hl

/-- Witness for C6: guessing a character outside the alphabet of a
concrete fresh game. -/
theorem c6_invalid_guess_no_change_witness :
    gameB.guess '?' = (gameB, Response.InvalidGuess (normalize_char '?')) :=
  c6_invalid_guess_no_change gameB '?' (by decide) (by decide)

/-- C8: in every reachable state, a word position is revealed (it holds
`some` of its word character) exactly when that character is outside the
alphabet map or marked guessed in it; consequently a position matching a
letter that is present but not yet guessed is still hidden, so the
reveal loop's internal assertion cannot fire. -/
theorem c8_revealed_iff_guessed (h : Hangman) (hr : Reachable h) :
    h.known_letters.length = h.word.length ∧
    (∀ i (hw : i < h.word.length) (hk : i < h.known_letters.length),
      (h.known_letters.get ⟨i, hk⟩ = some (h.word.get ⟨i, hw⟩) ↔
        (lookupChar h.letters (h.word.get ⟨i, hw⟩) = none ∨
         lookupChar h.letters (h.word.get ⟨i, hw⟩) = some true))) ∧
    (∀ g, lookupChar h.letters g = some false →
      ∀ i (hw : i < h.word.length) (hk : i < h.known_letters.length),
        h.word.get ⟨i, hw⟩ = g → h.known_letters.get ⟨i, hk⟩ = none) := by
  have hko := reach_knownOk hr
  refine ⟨knownOk_length hko, ?_, ?_⟩
  · intro i hw hk
    rw [knownOk_get hko i hw hk]
    simp only [List.get_eq_getElem]
    rcases hb : lookupChar h.letters h.word[i] with _ | b
    · simp [revealedSpec, hb]
    · cases b <;> simp [revealedSpec, hb]
  · intro g hg i hw hk hwg
    rw [knownOk_get hko i hw hk, hwg]
    simp [revealedSpec, hg]

/-- Witness for C8 at a concrete reachable state. -/
theorem c8_revealed_iff_guessed_witness :
    gameB.known_letters.length = gameB.word.length :=
  (c8_revealed_iff_guessed gameB (Reachable.new ['A'] ['A', 'B'] gameB (by decide))).1

/-- C9: rendering is a pure, deterministic function of the `Content`
snapshot: equal `Content` values produce identical `Frame` lines. -/
theorem c9_render_deterministic (x y : Content) (hxy : x = y) :
    Content.render x = Content.render y :=
  congrArg Content.render hxy

/-- Witness for C9 at a concrete snapshot. -/
theorem c9_render_deterministic_witness :
    Content.render sampleContent = Content.render sampleContent :=
  c9_render_deterministic sampleContent sampleContent rfl

/-- C10: for each of the seven gallows stages and both highlight values,
the gallows-art lookup is a constant table of exactly
`GALLOWS_HEIGHT = 5` lines, every line of display width
`GALLOWS_WIDTH = 8`, counting emphasis/colour escape sequences as zero
width and drawing characters as single columns. -/
theorem c10_gallows_art_dimensions (g : Gallows) (hl : Bool) :
    (Content.draw_gallows g hl).length = Content.GALLOWS_HEIGHT ∧
    ∀ s ∈ Content.draw_gallows g hl, displayWidth s = Content.GALLOWS_WIDTH := by
  cases g <;> cases hl <;> exact ⟨rfl, by decide⟩

theorem succ_eq_none_iff (g : Gallows) : g.succ = none ↔ g = Gallows.END := by
  cases g <;> decide

theorem guess_bad_stuck {h : Hangman} (c : Char) (hf : h.fate = none)
    (hl : lookupChar h.letters (normalize_char c) = some false)
    (hc : countMatches h.word h.known_letters (normalize_char c) = 0)
    (hs : h.gallows.succ = none) :
    h.guess c =
      ({ h with
          letters := setGuessed h.letters (normalize_char c)
          known_letters := revealPositions h.word h.known_letters (normalize_char c)
          fate := some (Fate.Lost h.word) },
       Response.BadGuess (normalize_char c) (some h.word)) := by
  have hgend : h.gallows = Gallows.END := (succ_eq_none_iff _).mp hs
  simp [Hangman.guess, hf, hl, hc, hs, hgend, Gallows.END, Gallows.succ]

/-- C1: for every game constructed from a word and alphabet sharing at
least one character, running exactly six distinct unsuccessful guesses
(each with normalized form in the alphabet, not previously guessed, and
absent from the word) makes the sixth `guess` return a bad-guess
response carrying the loss data, and the fate becomes `Lost` carrying
the complete (normalized) original word. -/
theorem c1_six_bad_guesses_lose (word alphabet : List Char) (h₀ : Hangman) (gs : List Char)
    (hnew : Hangman.new word alphabet = Except.ok h₀)
    (hlen : gs.length = 6)
    (hdist : (gs.map normalize_char).Pairwise (· ≠ ·))
    (halpha : ∀ g ∈ gs, lookupChar h₀.letters (normalize_char g) = some false)
    (habs : ∀ g ∈ gs, normalize_char g ∉ h₀.word) :
    (runGuesses h₀ gs).1.fate = some (Fate.Lost (word.map normalize_char)) ∧
    (∃ g, gs.getLast? = some g ∧
      (runGuesses h₀ gs).2.getLast? =
        some (Response.BadGuess (normalize_char g) (some (word.map normalize_char)))) := by
  obtain ⟨hh, _⟩ := new_ok_elim hnew
  have hword : h₀.word = word.map normalize_char := by rw [hh]
  have hfate : h₀.fate = none := by rw [hh]
  have hgal : h₀.gallows = Gallows.Start := by rw [hh]
  have hidx : stageIdx h₀.gallows + gs.length = 6 := by rw [hgal, hlen]; rfl
  have hne : gs ≠ [] := by
    intro hnil
    rw [hnil] at hlen
    simp at hlen
  have hrun := badRun gs h₀ hfate hdist halpha habs hidx hne
  rwa [hword] at hrun

/-- Witness for C1: word "A" over alphabet A-G, wrong guesses B-G. -/
theorem c1_six_bad_guesses_lose_witness :
    (runGuesses gameA ['B', 'C', 'D', 'E', 'F', 'G']).1.fate
      = some (Fate.Lost (['A'].map normalize_char)) :=
  (c1_six_bad_guesses_lose ['A'] ['A', 'B', 'C', 'D', 'E', 'F', 'G'] gameA
    ['B', 'C', 'D', 'E', 'F', 'G'] (by decide) (by decide) (by decide) (by decide)
    (by decide)).1

/-- C5: the gallows stage advances by exactly one stage on a genuinely
new in-alphabet guess wholly absent from the word, never advances on a
guess matching at least one word position, never advances after the fate
is set, and never moves to an earlier stage under any sequence of guess
calls. -/
theorem c5_gallows_monotone (h : Hangman) (c : Char) (hr : Reachable h) :
    (h.fate = none → lookupChar h.letters (normalize_char c) = some false →
      normalize_char c ∉ h.word →
      h.gallows.succ = some (h.guess c).1.gallows) ∧
    (h.fate = none → lookupChar h.letters (normalize_char c) = some false →
      normalize_char c ∈ h.word →
      (h.guess c).1.gallows = h.gallows) ∧
    (h.fate.isSome = true → (h.guess c).1.gallows = h.gallows) ∧
    (∀ gs : List Char, stageIdx h.gallows ≤ stageIdx (runGuesses h gs).1.gallows) := by
  refine ⟨?_, ?_, ?_, fun gs => stageIdx_le_runGuesses gs h⟩
  · intro hf hl habs
    have hcz := countMatches_of_not_mem h.word h.known_letters _ habs
    have hgne : h.gallows ≠ Gallows.END := reach_gallows_ne_end hr hf
    rcases hs : h.gallows.succ with _ | gal
    · exact absurd ((succ_eq_none_iff _).mp hs) hgne
    · by_cases hgend : gal = Gallows.END
      · subst hgend
        rw [guess_bad_lose c hf hl hcz hs]
      · rw [guess_bad_step c hf hl hcz hs hgend]
  · intro hf hl hmw
    have hko := reach_knownOk hr
    have hcpos := countMatches_pos _ _ _ (knownOk_length hko) hmw
    by_cases hall :
        (revealPositions h.word h.known_letters (normalize_char c)).all Option.isSome = true
    · rw [guess_good_won c hf hl hcpos hall]
    · rw [guess_good_continue c hf hl hcpos (by simpa using hall)]
  · intro hf
    rw [guess_game_over c hf]

/-- Witness for C5 on a concrete reachable fresh game and wrong guess. -/
theorem c5_gallows_monotone_witness :
    Gallows.succ gameA.gallows = some ((gameA.guess 'B').1.gallows) :=
  (c5_gallows_monotone gameA 'B'
      (Reachable.new ['A'] ['A', 'B', 'C', 'D', 'E', 'F', 'G'] gameA (by decide))).1
    (by decide) (by decide) (by decide)

/-- Counterexample to C7 as stated: in the game with secret word "A"
over alphabet AB the fate is unset and the character is a valid fresh
guess, yet guessing it twice yields `GameOver` on the repeat, not
`AlreadyGuessed`, because the first guess won the game. -/
theorem c7_repeat_counterexample :
    gameB.fate = none ∧
    lookupChar gameB.letters (normalize_char 'A') = some false ∧
    ((gameB.guess 'A').1.guess 'A').2 = Response.GameOver ∧
    ((gameB.guess 'A').1.guess 'A').2 ≠ Response.AlreadyGuessed (normalize_char 'A') := by
  decide

/-- C7 (amended): for every game whose fate is not yet set, guessing a
valid not-yet-guessed character yields a real outcome (`GoodGuess` or
`BadGuess`); provided that guess did not end the game, guessing the same
character again yields `AlreadyGuessed` and leaves every component of
the state unchanged. -/
theorem c7_repeat_already_guessed (h : Hangman) (c : Char) (hf : h.fate = none)
    (hl : lookupChar h.letters (normalize_char c) = some false) :
    ((∃ n w, (h.guess c).2 = Response.GoodGuess (normalize_char c) n w) ∨
      (∃ l, (h.guess c).2 = Response.BadGuess (normalize_char c) l)) ∧
    ((h.guess c).1.fate = none →
      (h.guess c).1.guess c = ((h.guess c).1, Response.AlreadyGuessed (normalize_char c))) := by
  have hsetl : ∀ h2 : Hangman, h2.letters = setGuessed h.letters (normalize_char c) →
      h2.fate = none →
      h2.guess c = (h2, Response.AlreadyGuessed (normalize_char c)) := by
    intro h2 hlet hf2
    apply guess_already c hf2
    rw [hlet, lookupChar_setGuessed, if_pos rfl, hl]
    rfl
  by_cases hcpos : 0 < countMatches h.word h.known_letters (normalize_char c)
  · by_cases hall :
        (revealPositions h.word h.known_letters (normalize_char c)).all Option.isSome = true
    · rw [guess_good_won c hf hl hcpos hall]
      refine ⟨Or.inl ⟨_, _, rfl⟩, ?_⟩
      intro hfn
      simp at hfn
    · have hallf := (Bool.not_eq_true _).mp hall
      rw [guess_good_continue c hf hl hcpos hallf]
      exact ⟨Or.inl ⟨_, _, rfl⟩, fun _ => hsetl _ rfl hf⟩
  · have hcz : countMatches h.word h.known_letters (normalize_char c) = 0 :=
      Nat.eq_zero_of_not_pos hcpos
    rcases hs : h.gallows.succ with _ | gal
    · rw [guess_bad_stuck c hf hl hcz hs]
      refine ⟨Or.inr ⟨_, rfl⟩, ?_⟩
      intro hfn
      simp at hfn
    · by_cases hgend : gal = Gallows.END
      · subst hgend
        rw [guess_bad_lose c hf hl hcz hs]
        refine ⟨Or.inr ⟨_, rfl⟩, ?_⟩
        intro hfn
        simp at hfn
      · rw [guess_bad_step c hf hl hcz hs hgend]
        exact ⟨Or.inr ⟨_, rfl⟩, fun _ => hsetl _ rfl hf⟩

/-- Witness for C7 (amended): repeating a good but non-winning guess. -/
theorem c7_repeat_already_guessed_witness :
    (gameCA.guess 'C').1.guess 'C'
      = ((gameCA.guess 'C').1, Response.AlreadyGuessed (normalize_char 'C')) :=
  (c7_repeat_already_guessed gameCA 'C' (by decide) (by decide)).2 (by decide)

/-- C2: guessing every distinct guessable character of the word (those
in the alphabet map), in any order, fully reveals the known-letters
vector (every position `some`) and sets the fate to `Won` on the exact
guess that completes it: that guess's `GoodGuess` response carries
`won = true`, while every earlier response is a `GoodGuess` with
`won = false`. -/
theorem c2_guessing_word_wins (word alphabet : List Char) (h₀ : Hangman) (gs : List Char)
    (hnew : Hangman.new word alphabet = Except.ok h₀)
    (hdist : (gs.map normalize_char).Pairwise (· ≠ ·))
    (halpha : ∀ g ∈ gs, lookupChar h₀.letters (normalize_char g) = some false)
    (hmemw : ∀ g ∈ gs, normalize_char g ∈ h₀.word)
    (hcover : ∀ c ∈ h₀.word, lookupChar h₀.letters c = some false →
      c ∈ gs.map normalize_char) :
    (runGuesses h₀ gs).1.fate = some Fate.Won ∧
    (runGuesses h₀ gs).1.known_letters.all Option.isSome = true ∧
    (∀ r ∈ (runGuesses h₀ gs).2.dropLast, ∃ g n, r = Response.GoodGuess g n false) ∧
    (∃ g n, gs.getLast? = some g ∧
      (runGuesses h₀ gs).2.getLast? =
        some (Response.GoodGuess (normalize_char g) n true)) := by
  obtain ⟨hh, hnall⟩ := new_ok_elim hnew
  have hko : knownOk h₀.letters h₀.word h₀.known_letters = true := by
    rw [hh]
    exact knownOk_new alphabet (word.map normalize_char)
  have hf : h₀.fate = none := by rw [hh]
  have hne : gs ≠ [] := by
    intro hnil
    subst hnil
    have hall : h₀.known_letters.all Option.isSome = true := by
      rw [knownOk_all_isSome hko]
      intro c hcw
      rcases hb : lookupChar h₀.letters c with _ | b
      · simp [revealedSpec, hb]
      · cases b
        · have := hcover c hcw hb
          simp at this
        · simp [revealedSpec, hb]
    have hall2 : ((word.map normalize_char).map
        (fun c => if (lookupChar (buildLetters alphabet) c).isSome then none else some c)).all
          Option.isSome = true := by
      rw [hh] at hall
      exact hall
    rw [hnall] at hall2
    simp at hall2
  exact winRun gs h₀ hko hf hdist halpha hmemw hcover hne

/-- Witness for C2: word "CAB" over alphabet ABC, guesses C, A, B. -/
theorem c2_guessing_word_wins_witness :
    (runGuesses gameCAB ['C', 'A', 'B']).1.fate = some Fate.Won ∧
    (runGuesses gameCAB ['C', 'A', 'B']).1.known_letters.all Option.isSome = true := by
  have hres := c2_guessing_word_wins ['C', 'A', 'B'] ['A', 'B', 'C'] gameCAB ['C', 'A', 'B']
    (by decide) (by decide) (by decide) (by decide) (by decide)
  exact ⟨hres.1, hres.2.1⟩

/-- C3: construction succeeds whenever the word shares at least one
character with the alphabet after normalization, and then the number of
pre-revealed positions equals exactly the count of word characters
absent from the alphabet; with no shared character at all, construction
fails with the no-alphabet-overlap error. -/
theorem c3_new_prereveal_count (word alphabet : List Char) :
    ((∃ c ∈ word, normalize_char c ∈ alphabet.map normalize_char) →
      isOkB (Hangman.new word alphabet) = true ∧
      (knownOf (Hangman.new word alphabet)).countP Option.isSome =
        word.countP (fun c => decide (normalize_char c ∉ alphabet.map normalize_char))) ∧
    ((∀ c ∈ word, normalize_char c ∉ alphabet.map normalize_char) →
      Hangman.new word alphabet = Except.error HangmanError.NoAlphabet) := by
  have hval : ∀ x : Char,
      (if (lookupChar (buildLetters alphabet) x).isSome then (none : Option Char) else some x)
        = if x ∈ alphabet.map normalize_char then none else some x := by
    intro x
    rw [lookupChar_buildLetters]
    by_cases hx : x ∈ alphabet.map normalize_char <;> simp [hx]
  constructor
  · rintro ⟨c, hcw, hcm⟩
    have hlkc : lookupChar (buildLetters alphabet) (normalize_char c) = some false := by
      rw [lookupChar_buildLetters, if_pos hcm]
    have hcond : ¬(∀ a ∈ word, lookupChar (buildLetters alphabet) (normalize_char a)
        = none) := by
      intro hcontra
      rw [hcontra c hcw] at hlkc
      simp at hlkc
    constructor
    · simp [Hangman.new, isOkB, hcond]
    · have hkn : knownOf (Hangman.new word alphabet) =
          word.map ((fun x => if (lookupChar (buildLetters alphabet) x).isSome then none
            else some x) ∘ normalize_char) := by
        simp [Hangman.new, knownOf, hcond]
      rw [hkn, List.countP_map]
      apply List.countP_congr
      intro x _
      by_cases hxm : normalize_char x ∈ alphabet.map normalize_char
      · simp [Function.comp, hval, hxm]
      · simp [Function.comp, hval, hxm]
  · intro hnone
    have hcond : ∀ a ∈ word, lookupChar (buildLetters alphabet) (normalize_char a) = none := by
      intro a ha
      rw [lookupChar_buildLetters, if_neg (hnone a ha)]
    simp only [Hangman.new]
    simp
    exact hcond

/-- Witness for C3: word "CAB" over alphabet AB pre-reveals exactly the
one character outside the alphabet, and word "X" over alphabet AB fails. -/
theorem c3_new_prereveal_count_witness :
    (isOkB (Hangman.new ['C', 'A', 'B'] ['A', 'B']) = true ∧
      (knownOf (Hangman.new ['C', 'A', 'B'] ['A', 'B'])).countP Option.isSome =
        ['C', 'A', 'B'].countP
          (fun c => decide (normalize_char c ∉ ['A', 'B'].map normalize_char))) ∧
    Hangman.new ['X'] ['A', 'B'] = Except.error HangmanError.NoAlphabet :=
  ⟨(c3_new_prereveal_count ['C', 'A', 'B'] ['A', 'B']).1 (by decide),
   (c3_new_prereveal_count ['X'] ['A', 'B']).2 (by decide)⟩
